import Mathlib

/-!
Verification of the modified-Kruskal network construction of
`np/lib/network/modKruskal/__init__.py` (networkplanner).

Nodes are represented by their index into the node registry; a node carries
an integer id (negative means fixed/existing) and a rational weight (the
residual budget).  Segment endpoints are node indices; the segment weight is
its cost.  The union-find state of `np.lib.network.Network` is represented by
a list `comp` assigning each node index a component representative label.
Rational numbers stand in for the Python floats.
-/

/-- A coordinate pair in the active projection. -/
abbrev Point : Type := ℚ × ℚ

/-- A candidate segment: two endpoint node indices and a cost weight
(`segment.getNodes()`, `segment.getWeight()`). -/
structure Segment where
  node1 : Nat
  node2 : Nat
  weight : ℚ
deriving DecidableEq, Repr

/-- The mutable network state: per-node ids (`node.getID()`), the component
representative of each node (the Subnet containing it), and per-node weights
(`node.getWeight()` / `node.setWeight()`). -/
structure NetState where
  ids : List Int
  comp : List Nat
  weight : List ℚ
deriving DecidableEq, Repr

/-- Number of nodes in the registry. -/
def NetState.n (s : NetState) : Nat := s.ids.length

/-- Component representative of node `i` (its Subnet's label). -/
def NetState.rep (s : NetState) (i : Nat) : Nat := s.comp.getD i i

/-- `node.getWeight()` for node index `i`. -/
def NetState.wt (s : NetState) (i : Nat) : ℚ := s.weight.getD i 0

/-- `node.getID()` for node index `i`. -/
def NetState.nid (s : NetState) (i : Nat) : Int := s.ids.getD i 0

/-- Well-formedness: the three per-node lists have the same length. -/
def NetState.WF (s : NetState) : Prop :=
  s.comp.length = s.ids.length ∧ s.weight.length = s.ids.length

/-- Modelled from the spec: `Network.addSegment` lives in `np.lib.network`,
which is not in the source tree; per spec section 4.5 it looks up the Subnets
currently containing each endpoint, returns `None` when they are identical
(cycle, no state change), and otherwise merges the two Subnets into one whose
node set is the union, returning the merged Subnet.  The merged Subnet is
returned here as its list of member node indices together with the updated
state. -/
def addSegment (s : NetState) (seg : Segment) : Option (List Nat × NetState) :=
  let r1 := s.rep seg.node1
  let r2 := s.rep seg.node2
  if r1 = r2 then none
  else
    let members := (List.range s.n).filter (fun i => s.rep i = r1 ∨ s.rep i = r2)
    some (members, { s with comp := s.comp.map (fun r => if r = r2 then r1 else r) })

/-- `for node in subnet.cycleNodes(): node.setWeight(weight)` — set the weight
of every member node to `v`. -/
def setWeights (w : List ℚ) (members : List Nat) (v : ℚ) : List ℚ :=
  members.foldl (fun acc i => acc.set i v) w

/-- The state produced by a successful merge commit, once every member of the
merged Subnet has been assigned the weight `v`. -/
def mergedState (s1 : NetState) (ms : List Nat) (v : ℚ) : NetState :=
  { s1 with weight := setWeights s1.weight ms v }

/-- `n1Weight >= sWeight or node1.getID() < 0  # canAfford or isFake`
(modKruskal lines 126-127). -/
def nodeQualifies (s : NetState) (i : Nat) (sWeight : ℚ) : Bool :=
  decide (s.wt i ≥ sWeight) || decide (s.nid i < 0)

/-- The spec's affordability predicate, stated in the spec's own words
(section 4.6b): a node qualifies iff `weight(node) >= wS OR node.id < 0`. -/
def specQualifies (s : NetState) (i : Nat) (wS : ℚ) : Prop :=
  s.wt i ≥ wS ∨ s.nid i < 0

instance (s : NetState) (i : Nat) (wS : ℚ) : Decidable (specQualifies s i wS) :=
  inferInstanceAs (Decidable (_ ∨ _))

/-- The commit path of the loop body (modKruskal lines 131-136): try to add
the segment; if a merged Subnet comes back, set every one of its nodes'
weights to `n1W + n2W - sW`, where `n1W`, `n2W` were read before the merge. -/
def commitSegment (s : NetState) (seg : Segment) (n1W n2W : ℚ) : NetState :=
  match addSegment s seg with
  | some (members, s1) =>
      { s1 with weight := setWeights s1.weight members (n1W + n2W - seg.weight) }
  | none => s

/-- One iteration of the merge loop of `buildNetworkFromSegments`
(modKruskal lines 122-136). -/
def processSegment (s : NetState) (seg : Segment) : NetState :=
  let n1W := s.wt seg.node1
  let n2W := s.wt seg.node2
  let sW := seg.weight
  if nodeQualifies s seg.node1 sW && nodeQualifies s seg.node2 sW then
    commitSegment s seg n1W n2W
  else s

/-- `sorted(segments, key=lambda x: x.getWeight())` — Python's `sorted` is an
ascending stable sort, modelled by `List.mergeSort`. -/
def sortSegments (segs : List Segment) : List Segment :=
  segs.mergeSort (fun a b => decide (a.weight ≤ b.weight))

/-- `buildNetworkFromSegments` (modKruskal lines 113-138): one ordered pass of
the merge loop over the sorted candidates. -/
def buildNetworkFromSegments (s : NetState) (segs : List Segment) : NetState :=
  (sortSegments segs).foldl processSegment s

/-- Modelled from the spec: `Subnet.countNodes` lives in `np.lib.network`,
which is not in the source tree; per spec section 4.5 it counts the real
(non-fixed) member nodes only. -/
def countNodes (s : NetState) (members : List Nat) : Nat :=
  (members.filter (fun i => decide (0 ≤ s.nid i))).length

/-- Modelled from the spec: `Network.cycleSubnets` lives in `np.lib.network`,
which is not in the source tree; per spec section 4.5 it enumerates the
current distinct components.  Each Subnet is given by its member node list. -/
def cycleSubnets (s : NetState) : List (List Nat) :=
  (((List.range s.n).map s.rep).dedup).map
    (fun r => (List.range s.n).filter (fun i => s.rep i = r))

/-- The pruning step of `buildNetworkFromNodes` (modKruskal lines 58-63):
keep exactly the subnets whose real-node count reaches the configured
minimum. -/
def pruneSubnets (s : NetState) (subnets : List (List Nat)) (m : Int) : List (List Nat) :=
  subnets.filter (fun sn => decide (m ≤ (countNodes s sn : Int)))

/-- Modelled from the spec: the nearest-neighbor query backend (scipy
`KDTree.query` / pysal `Arc_KDTree`) is an external collaborator; per spec
section 4.2 `kNearest(point, k)` returns an ordered sequence of node indices,
nearest first, and when `k` exceeds the available nodes it returns all
available indices without error.  `d` is the distance metric chosen by the
projection (an external pure function per section 6). -/
def kNearest (d : Point → Point → ℚ) (pts : List Point) (p : Point) (k : Nat) : List Nat :=
  ((List.range pts.length).mergeSort
      (fun i j => decide (d p (pts.getD i (0, 0)) ≤ d p (pts.getD j (0, 0))))).take k

/-- `generateSegments` (modKruskal lines 93-111), without an existing network
configured: for every node, query its `k` nearest neighbors and emit one
candidate segment to each, whose weight is the distance computed by the
external metric `d`. -/
def generateSegments (d : Point → Point → ℚ) (pts : List Point) (k : Nat) : List Segment :=
  (List.range pts.length).flatMap (fun i =>
    (kNearest d pts (pts.getD i (0, 0)) k).map (fun j =>
      { node1 := i, node2 := j, weight := d (pts.getD i (0, 0)) (pts.getD j (0, 0)) }))

/-- The initial network: every real node (nonnegative id) in its own
singleton Subnet, carrying its initial budget weight. -/
def initialState (ws : List ℚ) : NetState :=
  { ids := (List.range ws.length).map Int.ofNat
    comp := List.range ws.length
    weight := ws }

/-- The state after the merge loop of `buildNetworkFromNodes`
(modKruskal line 56), before pruning. -/
def builtState (d : Point → Point → ℚ) (pts : List Point) (ws : List ℚ) (k : Nat) : NetState :=
  buildNetworkFromSegments (initialState ws) (generateSegments d pts k)

/-- `buildNetworkFromNodes` (modKruskal lines 46-65): build the network from
the generated candidates, then eliminate subnetworks that have too few real
nodes. -/
def buildNetworkFromNodes (d : Point → Point → ℚ) (pts : List Point) (ws : List ℚ)
    (k : Nat) (m : Int) : List (List Nat) :=
  pruneSubnets (builtState d pts ws k) (cycleSubnets (builtState d pts ws k)) m

/-- Weight homogeneity (spec invariant I2): all nodes within one Subnet hold
one identical weight value. -/
def homog (s : NetState) : Prop :=
  ∀ i < s.n, ∀ j < s.n, s.rep i = s.rep j → s.wt i = s.wt j

/-- All-real components keep a nonnegative budget: every node whose whole
component consists of non-fixed (nonnegative-id) nodes has nonnegative
weight. -/
def nonnegOnReal (s : NetState) : Prop :=
  ∀ i < s.n, (∀ j < s.n, s.rep j = s.rep i → 0 ≤ s.nid j) → 0 ≤ s.wt i

theorem setWeights_cons (w : List ℚ) (i : Nat) (ms : List Nat) (v : ℚ) :
    setWeights w (i :: ms) v = setWeights (w.set i v) ms v := rfl

theorem setWeights_length (ms : List Nat) (w : List ℚ) (v : ℚ) :
    (setWeights w ms v).length = w.length := by
  induction ms generalizing w with
  | nil => rfl
  | cons i ms ih => rw [setWeights_cons, ih, List.length_set]

theorem getD_setWeights (ms : List Nat) (w : List ℚ) (v : ℚ) (j : Nat) :
    (setWeights w ms v).getD j 0 =
      if j ∈ ms ∧ j < w.length then v else w.getD j 0 := by
  induction ms generalizing w with
  | nil => simp [setWeights]
  | cons i ms ih =>
      rw [setWeights_cons, ih, List.length_set]
      by_cases hjl : j < w.length
      · by_cases hjm : j ∈ ms
        · simp [hjm, hjl, List.mem_cons]
        · by_cases hij : j = i
          · subst hij
            simp [hjm, hjl, List.getD_eq_getElem?_getD, List.getElem?_set_self hjl,
              List.mem_cons]
          · simp [hjm, hjl, hij, List.getD_eq_getElem?_getD,
              List.getElem?_set_ne (Ne.symm hij), List.mem_cons]
      · have hnone : w[j]? = none := List.getElem?_eq_none (Nat.le_of_not_lt hjl)
        have hnone2 : (w.set i v)[j]? = none := by
          rw [List.getElem?_eq_none]
          simpa using Nat.le_of_not_lt hjl
        simp [hjl, List.getD_eq_getElem?_getD, hnone, hnone2]

theorem addSegment_eq_none {s : NetState} {seg : Segment}
    (h : s.rep seg.node1 = s.rep seg.node2) : addSegment s seg = none := by
  simp [addSegment, h]

theorem addSegment_some_elim {s : NetState} {seg : Segment} {ms : List Nat} {s1 : NetState}
    (ha : addSegment s seg = some (ms, s1)) :
    s.rep seg.node1 ≠ s.rep seg.node2 ∧
    ms = (List.range s.n).filter
      (fun i => s.rep i = s.rep seg.node1 ∨ s.rep i = s.rep seg.node2) ∧
    s1 = { s with comp := s.comp.map (fun r =>
      if r = s.rep seg.node2 then s.rep seg.node1 else r) } := by
  by_cases h : s.rep seg.node1 = s.rep seg.node2
  · rw [addSegment_eq_none h] at ha
    exact absurd ha (by simp)
  · refine ⟨h, ?_, ?_⟩ <;>
    · simp only [addSegment, if_neg h, Option.some.injEq, Prod.mk.injEq] at ha
      tauto

theorem processSegment_of_qualifies {s : NetState} {seg : Segment}
    (hq : (nodeQualifies s seg.node1 seg.weight && nodeQualifies s seg.node2 seg.weight) = true) :
    processSegment s seg = commitSegment s seg (s.wt seg.node1) (s.wt seg.node2) := by
  simp [processSegment, hq]

theorem processSegment_of_not_qualifies {s : NetState} {seg : Segment}
    (hq : ¬((nodeQualifies s seg.node1 seg.weight && nodeQualifies s seg.node2 seg.weight) = true)) :
    processSegment s seg = s := by
  simp [processSegment, Bool.eq_false_iff.2 hq]

theorem commitSegment_of_none {s : NetState} {seg : Segment} {n1W n2W : ℚ}
    (ha : addSegment s seg = none) : commitSegment s seg n1W n2W = s := by
  simp [commitSegment, ha]

theorem commitSegment_of_some {s : NetState} {seg : Segment} {ms : List Nat} {s1 : NetState}
    {n1W n2W : ℚ} (ha : addSegment s seg = some (ms, s1)) :
    commitSegment s seg n1W n2W =
      { s1 with weight := setWeights s1.weight ms (n1W + n2W - seg.weight) } := by
  simp [commitSegment, ha]

theorem ids_processSegment (s : NetState) (seg : Segment) :
    (processSegment s seg).ids = s.ids := by
  by_cases hq : (nodeQualifies s seg.node1 seg.weight && nodeQualifies s seg.node2 seg.weight) = true
  · rw [processSegment_of_qualifies hq]
    rcases ha : addSegment s seg with _ | ⟨ms, s1⟩
    · rw [commitSegment_of_none ha]
    · rw [commitSegment_of_some ha]
      obtain ⟨-, -, hs1⟩ := addSegment_some_elim ha
      rw [hs1]
  · rw [processSegment_of_not_qualifies hq]

theorem n_processSegment (s : NetState) (seg : Segment) :
    (processSegment s seg).n = s.n := by
  rw [NetState.n, ids_processSegment]; rfl

theorem WF_processSegment {s : NetState} (seg : Segment) (hwf : s.WF) :
    (processSegment s seg).WF := by
  by_cases hq : (nodeQualifies s seg.node1 seg.weight && nodeQualifies s seg.node2 seg.weight) = true
  · rw [processSegment_of_qualifies hq]
    rcases ha : addSegment s seg with _ | ⟨ms, s1⟩
    · rw [commitSegment_of_none ha]; exact hwf
    · rw [commitSegment_of_some ha]
      obtain ⟨-, -, hs1⟩ := addSegment_some_elim ha
      subst hs1
      refine ⟨?_, ?_⟩
      · simpa [NetState.WF] using hwf.1
      · simpa [NetState.WF, setWeights_length] using hwf.2
  · rw [processSegment_of_not_qualifies hq]; exact hwf

theorem nodeQualifies_iff {s : NetState} {i : Nat} {wS : ℚ} :
    nodeQualifies s i wS = true ↔ specQualifies s i wS := by
  simp [nodeQualifies, specQualifies]

theorem wt_of_ge {s : NetState} {i : Nat} (hwf : s.WF) (h : s.n ≤ i) : s.wt i = 0 := by
  rw [NetState.wt, List.getD_eq_default]
  rw [hwf.2]; exact h

theorem nid_of_ge {s : NetState} {i : Nat} (h : s.n ≤ i) : s.nid i = 0 := by
  rw [NetState.nid, List.getD_eq_default]
  exact h

theorem rep_map_merge (s : NetState) (r1 r2 : Nat) {i : Nat} (hi : i < s.comp.length) :
    (s.comp.map (fun r => if r = r2 then r1 else r)).getD i i =
      if s.rep i = r2 then r1 else s.rep i := by
  rw [List.getD_eq_getElem _ _ (by simpa using hi), List.getElem_map,
    NetState.rep, List.getD_eq_getElem _ _ hi]

theorem foldl_processSegment_inv (Q : NetState → Prop) :
    ∀ (l : List Segment) (s : NetState),
      (∀ t : NetState, ∀ seg ∈ l, Q t → Q (processSegment t seg)) → Q s →
      Q (l.foldl processSegment s) := by
  intro l
  induction l with
  | nil => intro s _ hQ; exact hQ
  | cons a l ih =>
      intro s hstep hQ
      exact ih _ (fun t seg hm => hstep t seg (List.mem_cons_of_mem _ hm))
        (hstep s a (List.mem_cons_self _ _) hQ)

theorem commitSegment_merged {s : NetState} {seg : Segment} {ms : List Nat} {s1 : NetState}
    {n1W n2W : ℚ} (ha : addSegment s seg = some (ms, s1)) :
    commitSegment s seg n1W n2W = mergedState s1 ms (n1W + n2W - seg.weight) := by
  rw [commitSegment_of_some ha, mergedState]

theorem merged_n {s : NetState} {seg : Segment} {ms : List Nat} {s1 : NetState}
    (ha : addSegment s seg = some (ms, s1)) (v : ℚ) :
    (mergedState s1 ms v).n = s.n := by
  obtain ⟨-, -, hs1⟩ := addSegment_some_elim ha
  simp [mergedState, NetState.n, hs1]

theorem merged_nid {s : NetState} {seg : Segment} {ms : List Nat} {s1 : NetState}
    (ha : addSegment s seg = some (ms, s1)) (v : ℚ) (i : Nat) :
    (mergedState s1 ms v).nid i = s.nid i := by
  obtain ⟨-, -, hs1⟩ := addSegment_some_elim ha
  simp [mergedState, NetState.nid, hs1]

theorem merged_wt {s : NetState} {seg : Segment} {ms : List Nat} {s1 : NetState}
    (ha : addSegment s seg = some (ms, s1)) (v : ℚ) (i : Nat) :
    (mergedState s1 ms v).wt i =
      if i ∈ ms ∧ i < s.weight.length then v else s.wt i := by
  obtain ⟨-, -, hs1⟩ := addSegment_some_elim ha
  show (setWeights s1.weight ms v).getD i 0 = _
  rw [hs1, getD_setWeights]
  rfl

theorem mem_merged_ms {s : NetState} {seg : Segment} {ms : List Nat} {s1 : NetState}
    (ha : addSegment s seg = some (ms, s1)) (x : Nat) :
    x ∈ ms ↔ x < s.n ∧ (s.rep x = s.rep seg.node1 ∨ s.rep x = s.rep seg.node2) := by
  obtain ⟨-, hms, -⟩ := addSegment_some_elim ha
  rw [hms]
  simp [List.mem_filter, List.mem_range]

theorem merged_rep {s : NetState} {seg : Segment} {ms : List Nat} {s1 : NetState}
    (ha : addSegment s seg = some (ms, s1)) (hwf : s.WF) (v : ℚ) {i : Nat} (hi : i < s.n) :
    (mergedState s1 ms v).rep i =
      if s.rep i = s.rep seg.node2 then s.rep seg.node1 else s.rep i := by
  obtain ⟨-, -, hs1⟩ := addSegment_some_elim ha
  have hic : i < s.comp.length := by rw [hwf.1]; exact hi
  show s1.comp.getD i i = _
  rw [hs1]
  exact rep_map_merge s _ _ hic

theorem merged_rep_of_mem {s : NetState} {seg : Segment} {ms : List Nat} {s1 : NetState}
    (ha : addSegment s seg = some (ms, s1)) (hwf : s.WF) (v : ℚ) {x : Nat} (hx : x ∈ ms) :
    (mergedState s1 ms v).rep x = s.rep seg.node1 := by
  obtain ⟨hne, -, -⟩ := addSegment_some_elim ha
  obtain ⟨hxn, hre⟩ := (mem_merged_ms ha x).1 hx
  rw [merged_rep ha hwf v hxn]
  rcases hre with h1 | h2
  · rw [if_neg (by rw [h1]; exact hne), h1]
  · rw [if_pos h2]

theorem homog_commit {s : NetState} {seg : Segment} {ms : List Nat} {s1 : NetState}
    (hwf : s.WF) (ha : addSegment s seg = some (ms, s1)) (hh : homog s) (v : ℚ) :
    homog (mergedState s1 ms v) := by
  intro i hi j hj hrep
  rw [merged_n ha v] at hi hj
  rw [merged_wt ha v i, merged_wt ha v j]
  have hiw : i < s.weight.length := by rw [hwf.2]; exact hi
  have hjw : j < s.weight.length := by rw [hwf.2]; exact hj
  by_cases hcase : s.rep i = s.rep seg.node1 ∨ s.rep i = s.rep seg.node2
  · have him : i ∈ ms := (mem_merged_ms ha i).2 ⟨hi, hcase⟩
    rw [merged_rep_of_mem ha hwf v him, merged_rep ha hwf v hj] at hrep
    have hcasej : s.rep j = s.rep seg.node1 ∨ s.rep j = s.rep seg.node2 := by
      by_cases hj2 : s.rep j = s.rep seg.node2
      · exact Or.inr hj2
      · rw [if_neg hj2] at hrep
        exact Or.inl hrep.symm
    have hjm : j ∈ ms := (mem_merged_ms ha j).2 ⟨hj, hcasej⟩
    rw [if_pos ⟨him, hiw⟩, if_pos ⟨hjm, hjw⟩]
  · push_neg at hcase
    have e2 : (mergedState s1 ms v).rep i = s.rep i := by
      rw [merged_rep ha hwf v hi, if_neg hcase.2]
    rw [e2, merged_rep ha hwf v hj] at hrep
    have hrep2 : s.rep i = s.rep j := by
      by_cases hj2 : s.rep j = s.rep seg.node2
      · rw [if_pos hj2] at hrep
        exact absurd hrep hcase.1
      · rw [if_neg hj2] at hrep
        exact hrep
    have hinm : i ∉ ms := fun him => by
      rcases ((mem_merged_ms ha i).1 him).2 with h1 | h2
      · exact hcase.1 h1
      · exact hcase.2 h2
    have hjnm : j ∉ ms := fun hjm => by
      rcases ((mem_merged_ms ha j).1 hjm).2 with h1 | h2
      · exact hcase.1 (hrep2.trans h1)
      · exact hcase.2 (hrep2.trans h2)
    rw [if_neg (fun hc => hinm hc.1), if_neg (fun hc => hjnm hc.1)]
    exact hh i hi j hj hrep2

theorem nonneg_commit {s : NetState} {seg : Segment} {ms : List Nat} {s1 : NetState}
    (hwf : s.WF) (ha : addSegment s seg = some (ms, s1))
    (hq : (nodeQualifies s seg.node1 seg.weight && nodeQualifies s seg.node2 seg.weight) = true)
    (hsw : 0 ≤ seg.weight) (hp : nonnegOnReal s) :
    nonnegOnReal (mergedState s1 ms (s.wt seg.node1 + s.wt seg.node2 - seg.weight)) := by
  rw [Bool.and_eq_true] at hq
  obtain ⟨hq1, hq2⟩ := hq
  intro i hi hall
  rw [merged_n ha _] at hi
  rw [merged_wt ha _ i]
  have hiw : i < s.weight.length := by rw [hwf.2]; exact hi
  by_cases him : i ∈ ms
  · rw [if_pos ⟨him, hiw⟩]
    have hTrepi := merged_rep_of_mem ha hwf
      (s.wt seg.node1 + s.wt seg.node2 - seg.weight) him
    have hend : ∀ e : Nat, nodeQualifies s e seg.weight = true →
        (s.rep e = s.rep seg.node1 ∨ s.rep e = s.rep seg.node2) →
        seg.weight ≤ s.wt e := by
      intro e hqe hre
      by_cases hb : e < s.n
      · have hem : e ∈ ms := (mem_merged_ms ha e).2 ⟨hb, hre⟩
        have hTrepe := merged_rep_of_mem ha hwf
          (s.wt seg.node1 + s.wt seg.node2 - seg.weight) hem
        have h0 : 0 ≤ s.nid e := by
          have h1 := hall e (by rw [merged_n ha]; exact hb) (by rw [hTrepe, hTrepi])
          rwa [merged_nid ha] at h1
        rcases nodeQualifies_iff.mp hqe with hw | hid
        · exact hw
        · omega
      · have hwt0 : s.wt e = 0 := wt_of_ge hwf (Nat.le_of_not_lt hb)
        have hid0 : s.nid e = 0 := nid_of_ge (Nat.le_of_not_lt hb)
        rcases nodeQualifies_iff.mp hqe with hw | hid
        · exact hw
        · rw [hid0] at hid
          exact absurd hid (by omega)
    have h1 : seg.weight ≤ s.wt seg.node1 := hend seg.node1 hq1 (Or.inl rfl)
    have h2 : seg.weight ≤ s.wt seg.node2 := hend seg.node2 hq2 (Or.inr rfl)
    linarith
  · rw [if_neg (fun hc => him hc.1)]
    apply hp i hi
    intro j hj hrepji
    have hrepi_not : ¬(s.rep i = s.rep seg.node1 ∨ s.rep i = s.rep seg.node2) :=
      fun hre => him ((mem_merged_ms ha i).2 ⟨hi, hre⟩)
    have hrepj_not : ¬(s.rep j = s.rep seg.node1 ∨ s.rep j = s.rep seg.node2) := by
      intro hre
      rcases hre with h1 | h2
      · exact hrepi_not (Or.inl (hrepji.symm.trans h1))
      · exact hrepi_not (Or.inr (hrepji.symm.trans h2))
    push_neg at hrepi_not hrepj_not
    have e1 : (mergedState s1 ms
        (s.wt seg.node1 + s.wt seg.node2 - seg.weight)).rep j = s.rep j := by
      rw [merged_rep ha hwf _ hj, if_neg hrepj_not.2]
    have e2 : (mergedState s1 ms
        (s.wt seg.node1 + s.wt seg.node2 - seg.weight)).rep i = s.rep i := by
      rw [merged_rep ha hwf _ hi, if_neg hrepi_not.2]
    have h0 := hall j (by rw [merged_n ha]; exact hj) (by rw [e1, e2, hrepji])
    rwa [merged_nid ha] at h0

theorem homog_processSegment {s : NetState} (seg : Segment) (hwf : s.WF) (hh : homog s) :
    homog (processSegment s seg) := by
  by_cases hq :
    (nodeQualifies s seg.node1 seg.weight && nodeQualifies s seg.node2 seg.weight) = true
  · rw [processSegment_of_qualifies hq]
    rcases ha : addSegment s seg with _ | ⟨ms, s1⟩
    · rw [commitSegment_of_none ha]; exact hh
    · rw [commitSegment_merged ha]
      exact homog_commit hwf ha hh _
  · rw [processSegment_of_not_qualifies hq]; exact hh

theorem nonneg_processSegment {s : NetState} {seg : Segment} (hwf : s.WF)
    (hsw : 0 ≤ seg.weight) (hp : nonnegOnReal s) :
    nonnegOnReal (processSegment s seg) := by
  by_cases hq :
    (nodeQualifies s seg.node1 seg.weight && nodeQualifies s seg.node2 seg.weight) = true
  · rw [processSegment_of_qualifies hq]
    rcases ha : addSegment s seg with _ | ⟨ms, s1⟩
    · rw [commitSegment_of_none ha]; exact hp
    · rw [commitSegment_merged ha]
      exact nonneg_commit hwf ha hq hsw hp
  · rw [processSegment_of_not_qualifies hq]; exact hp

theorem WF_homog_foldl (l : List Segment) (s : NetState) (hwf : s.WF) (hh : homog s) :
    (l.foldl processSegment s).WF ∧ homog (l.foldl processSegment s) :=
  foldl_processSegment_inv (fun t => t.WF ∧ homog t) l s
    (fun t seg _ ht => ⟨WF_processSegment seg ht.1, homog_processSegment seg ht.1 ht.2⟩)
    ⟨hwf, hh⟩

theorem WF_nonneg_foldl (l : List Segment) (s : NetState) (hwf : s.WF)
    (hws : ∀ seg ∈ l, 0 ≤ seg.weight) (hp : nonnegOnReal s) :
    (l.foldl processSegment s).WF ∧ nonnegOnReal (l.foldl processSegment s) :=
  foldl_processSegment_inv (fun t => t.WF ∧ nonnegOnReal t) l s
    (fun t seg hm ht =>
      ⟨WF_processSegment seg ht.1, nonneg_processSegment ht.1 (hws seg hm) ht.2⟩)
    ⟨hwf, hp⟩

/-- C1: In the merge loop of `buildNetworkFromSegments`, a candidate segment
takes the `addSegment` commit path iff each endpoint independently satisfies
the spec's affordability predicate (`weight(node) >= wS` or `node.id < 0`);
in particular a segment whose one endpoint is fixed (negative id) while the
other endpoint is non-fixed with weight strictly below the segment cost is
discarded with no state change. -/
theorem processSegment_commit_iff (s : NetState) (seg : Segment) :
    (processSegment s seg =
      if specQualifies s seg.node1 seg.weight ∧ specQualifies s seg.node2 seg.weight
      then commitSegment s seg (s.wt seg.node1) (s.wt seg.node2)
      else s)
    ∧ (s.nid seg.node1 < 0 → 0 ≤ s.nid seg.node2 → s.wt seg.node2 < seg.weight →
        processSegment s seg = s) := by
  constructor
  · by_cases hq : specQualifies s seg.node1 seg.weight ∧ specQualifies s seg.node2 seg.weight
    · rw [if_pos hq]
      apply processSegment_of_qualifies
      rw [Bool.and_eq_true]
      exact ⟨nodeQualifies_iff.2 hq.1, nodeQualifies_iff.2 hq.2⟩
    · rw [if_neg hq]
      apply processSegment_of_not_qualifies
      rw [Bool.and_eq_true]
      rintro ⟨h1, h2⟩
      exact hq ⟨nodeQualifies_iff.1 h1, nodeQualifies_iff.1 h2⟩
  · intro h1 h2 h3
    apply processSegment_of_not_qualifies
    rw [Bool.and_eq_true]
    rintro ⟨-, hb⟩
    rcases nodeQualifies_iff.1 hb with hw | hid
    · exact absurd hw (not_le.2 h3)
    · omega

theorem processSegment_commit_iff_witness :
    processSegment { ids := [-1, 0], comp := [0, 1], weight := [0, 1] }
        { node1 := 0, node2 := 1, weight := 5 } =
      { ids := [-1, 0], comp := [0, 1], weight := [0, 1] } :=
  (processSegment_commit_iff { ids := [-1, 0], comp := [0, 1], weight := [0, 1] }
      { node1 := 0, node2 := 1, weight := 5 }).2
    (by decide) (by decide) (by decide)

/-- C2: whenever a qualifying segment's `addSegment` call returns a merged
Subnet, every node of that Subnet is assigned the weight `wA + wB - wS`,
where `wA`, `wB` are the endpoint weights read before the merge and `wS` is
the segment's weight. -/
theorem merged_subnet_weight (s : NetState) (seg : Segment) (ms : List Nat) (s1 : NetState)
    (hwf : s.WF)
    (hq : (nodeQualifies s seg.node1 seg.weight && nodeQualifies s seg.node2 seg.weight) = true)
    (ha : addSegment s seg = some (ms, s1)) :
    ∀ i ∈ ms, (processSegment s seg).wt i =
      s.wt seg.node1 + s.wt seg.node2 - seg.weight := by
  intro i him
  rw [processSegment_of_qualifies hq, commitSegment_merged ha,
    merged_wt ha (s.wt seg.node1 + s.wt seg.node2 - seg.weight) i]
  have hin : i < s.n := ((mem_merged_ms ha i).1 him).1
  rw [if_pos ⟨him, by rw [hwf.2]; exact hin⟩]

theorem merged_subnet_weight_witness :
    (processSegment { ids := [0, 1], comp := [0, 1], weight := [10, 10] }
        { node1 := 0, node2 := 1, weight := 1 }).wt 0 = 19 := by
  have h := merged_subnet_weight
    { ids := [0, 1], comp := [0, 1], weight := [10, 10] }
    { node1 := 0, node2 := 1, weight := 1 }
    [0, 1] { ids := [0, 1], comp := [0, 0], weight := [10, 10] }
    ⟨rfl, rfl⟩ (by decide) (by decide) 0 (by decide)
  rw [h]
  show (10 : ℚ) + 10 - 1 = 19
  norm_num

/-- C3: weight homogeneity (I2) is an invariant of the merge loop: if all
nodes of any one Subnet hold equal weights at entry, then after processing
any candidate segment, and after the whole pass of
`buildNetworkFromSegments`, all nodes within any one Subnet still hold one
identical weight value. -/
theorem homog_invariant (s : NetState) (segs : List Segment) (hwf : s.WF) (hh : homog s) :
    homog (buildNetworkFromSegments s segs)
    ∧ ∀ seg : Segment, homog (processSegment s seg) := by
  constructor
  · exact (WF_homog_foldl (sortSegments segs) s hwf hh).2
  · intro seg
    exact homog_processSegment seg hwf hh

theorem homog_invariant_witness :
    homog (buildNetworkFromSegments { ids := [0, 1, 2], comp := [0, 1, 2], weight := [3, 7, 9] }
      [{ node1 := 0, node2 := 1, weight := 2 }, { node1 := 1, node2 := 2, weight := 4 }]) :=
  (homog_invariant { ids := [0, 1, 2], comp := [0, 1, 2], weight := [3, 7, 9] }
      [{ node1 := 0, node2 := 1, weight := 2 }, { node1 := 1, node2 := 2, weight := 4 }]
      ⟨rfl, rfl⟩ (by unfold homog; decide)).1

/-- C4: with nonnegative segment weights and nonnegative initial weights on
non-fixed nodes, every node whose whole Subnet consists of non-fixed
(nonnegative-id) nodes keeps a nonnegative weight after every prefix of the
sorted pass and at loop exit; negative weights can arise only in components
containing a fixed node. -/
theorem nonnegOnReal_invariant (s : NetState) (segs : List Segment) (hwf : s.WF)
    (hws : ∀ seg ∈ segs, 0 ≤ seg.weight)
    (hinit : ∀ i < s.n, 0 ≤ s.nid i → 0 ≤ s.wt i) :
    nonnegOnReal (buildNetworkFromSegments s segs)
    ∧ ∀ pre post : List Segment, sortSegments segs = pre ++ post →
        nonnegOnReal (pre.foldl processSegment s) := by
  have hp : nonnegOnReal s := by
    intro i hi hall
    exact hinit i hi (hall i hi rfl)
  have key : ∀ pre post : List Segment, sortSegments segs = pre ++ post →
      nonnegOnReal (pre.foldl processSegment s) := by
    intro pre post hsplit
    have hsub : ∀ seg ∈ pre, 0 ≤ seg.weight := by
      intro seg hm
      apply hws
      have hmem : seg ∈ sortSegments segs := by
        rw [hsplit]
        exact List.mem_append_left _ hm
      rw [sortSegments, List.mem_mergeSort] at hmem
      exact hmem
    exact (WF_nonneg_foldl pre s hwf hsub hp).2
  exact ⟨key (sortSegments segs) [] (List.append_nil _).symm, key⟩

theorem nonnegOnReal_invariant_witness :
    nonnegOnReal (buildNetworkFromSegments { ids := [0, 1], comp := [0, 1], weight := [2, 2] }
      [{ node1 := 0, node2 := 1, weight := 1 }]) :=
  (nonnegOnReal_invariant { ids := [0, 1], comp := [0, 1], weight := [2, 2] }
      [{ node1 := 0, node2 := 1, weight := 1 }]
      ⟨rfl, rfl⟩ (by decide) (by decide)).1

/-- C5: a discarded segment has no effect: when either endpoint fails the
affordability predicate, or `addSegment` returns `None` (cycle), the loop
body leaves the whole state (hence every node weight) unchanged; and the
pass is a single ordered fold, so each sorted candidate is consumed exactly
once and never reconsidered. -/
theorem discard_frame (s : NetState) (seg : Segment) :
    (¬(specQualifies s seg.node1 seg.weight ∧ specQualifies s seg.node2 seg.weight) →
      processSegment s seg = s)
    ∧ (addSegment s seg = none → processSegment s seg = s)
    ∧ (∀ segs pre post : List Segment, sortSegments segs = pre ++ post →
        buildNetworkFromSegments s segs =
          post.foldl processSegment (pre.foldl processSegment s)) := by
  refine ⟨?_, ?_, ?_⟩
  · intro hq
    apply processSegment_of_not_qualifies
    rw [Bool.and_eq_true]
    rintro ⟨h1, h2⟩
    exact hq ⟨nodeQualifies_iff.1 h1, nodeQualifies_iff.1 h2⟩
  · intro ha
    by_cases hq :
      (nodeQualifies s seg.node1 seg.weight && nodeQualifies s seg.node2 seg.weight) = true
    · rw [processSegment_of_qualifies hq, commitSegment_of_none ha]
    · exact processSegment_of_not_qualifies hq
  · intro segs pre post hsplit
    rw [buildNetworkFromSegments, hsplit, List.foldl_append]

theorem discard_frame_witness :
    (processSegment { ids := [0, 1], comp := [0, 1], weight := [0, 0] }
        { node1 := 0, node2 := 1, weight := 5 } =
      { ids := [0, 1], comp := [0, 1], weight := [0, 0] })
    ∧ (processSegment { ids := [0, 1], comp := [0, 0], weight := [10, 10] }
        { node1 := 0, node2 := 1, weight := 1 } =
      { ids := [0, 1], comp := [0, 0], weight := [10, 10] }) :=
  ⟨(discard_frame { ids := [0, 1], comp := [0, 1], weight := [0, 0] }
      { node1 := 0, node2 := 1, weight := 5 }).1
      (by unfold specQualifies; decide),
   (discard_frame { ids := [0, 1], comp := [0, 0], weight := [10, 10] }
      { node1 := 0, node2 := 1, weight := 1 }).2.1 (by decide)⟩

/-- C6: `buildNetworkFromSegments` processes the candidates as one fold over
`sortSegments`, which is an ascending stable sort by segment weight: the
output is sorted by weight, is a permutation of the input, and any two
candidates in input order whose weights satisfy `a.weight <= b.weight`
(in particular ties) keep their relative order. -/
theorem sortSegments_spec (segs : List Segment) :
    List.Pairwise (fun a b : Segment => a.weight ≤ b.weight) (sortSegments segs)
    ∧ (sortSegments segs).Perm segs
    ∧ (∀ s : NetState, buildNetworkFromSegments s segs =
        (sortSegments segs).foldl processSegment s)
    ∧ (∀ a b : Segment, a.weight ≤ b.weight → [a, b].Sublist segs →
        [a, b].Sublist (sortSegments segs)) := by
  have htrans : ∀ a b c : Segment, decide (a.weight ≤ b.weight) = true →
      decide (b.weight ≤ c.weight) = true → decide (a.weight ≤ c.weight) = true := by
    intro a b c h1 h2
    rw [decide_eq_true_eq] at *
    exact le_trans h1 h2
  have htotal : ∀ a b : Segment,
      (decide (a.weight ≤ b.weight) || decide (b.weight ≤ a.weight)) = true := by
    intro a b
    rw [Bool.or_eq_true, decide_eq_true_eq, decide_eq_true_eq]
    exact le_total a.weight b.weight
  refine ⟨?_, ?_, ?_, ?_⟩
  · exact (List.sorted_mergeSort htrans htotal segs).imp (fun hab => by simpa using hab)
  · exact List.mergeSort_perm segs _
  · intro s
    rfl
  · intro a b hab hsub
    exact List.mergeSort_stable_pair htrans htotal (by simpa using hab) hsub

theorem sortSegments_spec_witness :
    [{ node1 := 0, node2 := 1, weight := 5 }, { node1 := 2, node2 := 3, weight := 5 }].Sublist
      (sortSegments
        [{ node1 := 0, node2 := 1, weight := 5 }, { node1 := 2, node2 := 3, weight := 5 }]) :=
  (sortSegments_spec
      [{ node1 := 0, node2 := 1, weight := 5 }, { node1 := 2, node2 := 3, weight := 5 }]).2.2.2
    { node1 := 0, node2 := 1, weight := 5 } { node1 := 2, node2 := 3, weight := 5 }
    (by decide) (List.Sublist.refl _)

/-- C7: the network returned by `buildNetworkFromNodes` contains exactly
those Subnets of the built (pre-pruning) network whose real-node count is at
least the configured minimum; every smaller Subnet is dropped. -/
theorem buildNetworkFromNodes_mem (d : Point → Point → ℚ) (pts : List Point)
    (ws : List ℚ) (k : Nat) (m : Int) (sn : List Nat) :
    sn ∈ buildNetworkFromNodes d pts ws k m ↔
      sn ∈ cycleSubnets (builtState d pts ws k) ∧
        m ≤ (countNodes (builtState d pts ws k) sn : Int) := by
  rw [buildNetworkFromNodes, pruneSubnets]
  simp [List.mem_filter]

/-- C8: pruning is antitone in the threshold: for thresholds `m1 <= m2`, the
number of Subnets surviving with minimum `m2` is at most the number
surviving with minimum `m1`. -/
theorem pruneSubnets_antitone (s : NetState) (subnets : List (List Nat)) (m1 m2 : Int)
    (h : m1 ≤ m2) :
    (pruneSubnets s subnets m2).length ≤ (pruneSubnets s subnets m1).length := by
  apply List.Sublist.length_le
  apply List.monotone_filter_right
  intro sn hsn
  rw [decide_eq_true_eq] at *
  omega

theorem pruneSubnets_antitone_witness :
    (pruneSubnets { ids := [0, 1], comp := [0, 0], weight := [0, 0] } [[0], [0, 1]] 2).length ≤
      (pruneSubnets { ids := [0, 1], comp := [0, 0], weight := [0, 0] } [[0], [0, 1]] 1).length :=
  pruneSubnets_antitone { ids := [0, 1], comp := [0, 0], weight := [0, 0] } [[0], [0, 1]]
    1 2 (by decide)

theorem mem_kNearest_lt (d : Point → Point → ℚ) (pts : List Point) (p : Point) (k : Nat) :
    ∀ i ∈ kNearest d pts p k, i < pts.length := by
  intro i hi
  rw [kNearest] at hi
  have h1 := (List.take_sublist k _).subset hi
  rw [List.mem_mergeSort, List.mem_range] at h1
  exact h1

/-- C9: when the configured neighbor count `k` is at least the number of
available nodes, the nearest-neighbor query returns exactly the available
node indices (a permutation of them), every returned index is a valid row of
the coordinate matrix, and every candidate segment generated refers only to
valid rows, so candidate generation completes without error. -/
theorem kNearest_exceeding (d : Point → Point → ℚ) (pts : List Point) (p : Point) (k : Nat)
    (hk : pts.length ≤ k) :
    (kNearest d pts p k).Perm (List.range pts.length)
    ∧ (∀ i ∈ kNearest d pts p k, i < pts.length)
    ∧ (∀ seg ∈ generateSegments d pts k,
        seg.node1 < pts.length ∧ seg.node2 < pts.length) := by
  refine ⟨?_, mem_kNearest_lt d pts p k, ?_⟩
  · rw [kNearest]
    have hlen : ((List.range pts.length).mergeSort
        (fun i j => decide (d p (pts.getD i (0, 0)) ≤ d p (pts.getD j (0, 0))))).length =
        pts.length := by
      rw [(List.mergeSort_perm _ _).length_eq, List.length_range]
    rw [List.take_of_length_le (le_of_eq_of_le hlen hk)]
    exact List.mergeSort_perm _ _
  · intro seg hm
    rw [generateSegments] at hm
    simp only [List.mem_flatMap, List.mem_map, List.mem_range] at hm
    obtain ⟨i, hi, j, hj, rfl⟩ := hm
    exact ⟨hi, mem_kNearest_lt d pts _ k j hj⟩

theorem kNearest_exceeding_witness :
    (kNearest (fun _ _ => 0) [(0, 0), (1, 0)] (0, 0) 5).Perm (List.range 2) :=
  (kNearest_exceeding (fun _ _ => 0) [(0, 0), (1, 0)] (0, 0) 5 (by decide)).1

/-- C10: zero demand nodes (with no existing network configured) is not an
error: `generateSegments` yields an empty candidate list and
`buildNetworkFromNodes` yields an empty result. -/
theorem build_empty (d : Point → Point → ℚ) (k : Nat) (m : Int) :
    generateSegments d [] k = [] ∧ buildNetworkFromNodes d [] [] k m = [] := by
  constructor
  · rfl
  · simp [buildNetworkFromNodes, builtState, buildNetworkFromSegments, sortSegments,
      generateSegments, initialState, cycleSubnets, pruneSubnets, NetState.n]
